import Mathlib

/-!
Verification development for the blarse repository (src/parse_token.rs,
src/lispy_tests.rs, src/lib.rs).

The tagged token tree (`ParseToken`) and its operations (`new_leaf`,
`new_branch`, `new_branch_from_first`, `has_tag`, `content_range`, `content`,
`tokens_to_parse_tokens`) are embedded from src/parse_token.rs.  The
bracket-matching builder (`eval`) is embedded from src/lispy_tests.rs.

Conventions of the embedding:
- Rust `Range<usize>` becomes the structure `Rng` with fields `start`/`stop`
  (`stop` stands for the Rust field `end`, a Lean keyword).
- The Rust `ParseToken` struct holding a two-variant `ParseNode` plus `body`
  and `tags` fields is flattened into a two-constructor inductive carrying
  `body` and `tags` on each constructor; the two representations are
  isomorphic.
- Code that can panic is embedded as an `Option`-returning function where
  `none` marks the panic: `new_branch_from_first` panics on an empty child
  vector (`children[0]`), and `eval` panics when the slice bounds it computes
  are reversed or when it forwards an empty child list to
  `new_branch_from_first`.
- The recursive `eval` of the Rust source terminates because each recursive
  call shortens the vector; the embedding makes this explicit with a fuel
  argument (`evalGo`), started at `length + 1`, which is shown sufficient by
  `evalGo_fuel_irrel` (the value does not depend on the fuel once the fuel
  exceeds the length).
- Rust byte-indexed string slicing is modelled at character granularity by
  `strSlice` (the repository only exercises it on character-aligned ranges).
-/

namespace Blarse

/-- Half-open index range `[start, stop)`, embedding Rust `Range<usize>`.
The field `stop` renders the Rust field `end`, which is a Lean keyword. -/
structure Rng where
  start : Nat
  stop : Nat
deriving DecidableEq, Repr

/-- A lexical token of the external blex collaborator, as used by
src/parse_token.rs: a source text handle, a half-open range into it and a
tag list. -/
structure Token where
  body : String
  indices : Rng
  tags : List String
deriving DecidableEq, Repr

/-- The tagged token tree of src/parse_token.rs.  `Leaf r body tags` renders
`ParseToken { node: ParseNode::Leaf(r), body, tags }` and
`Branch cs body tags` renders
`ParseToken { node: ParseNode::Branch(cs), body, tags }`. -/
inductive ParseToken where
  | Leaf (range : Rng) (body : String) (tags : List String)
  | Branch (children : List ParseToken) (body : String) (tags : List String)

/-- The `body` field (source text handle) of a parse token. -/
def ParseToken.body : ParseToken → String
  | .Leaf _ b _ => b
  | .Branch _ b _ => b

/-- The `tags` field of a parse token. -/
def ParseToken.tags : ParseToken → List String
  | .Leaf _ _ t => t
  | .Branch _ _ t => t

/-- `ParseToken::has_tag`: exact membership test in the own tag list. -/
def ParseToken.has_tag (pt : ParseToken) (tag : String) : Bool :=
  pt.tags.contains tag

/-- `ParseToken::new_leaf`: builds a Leaf from a token, copying its range,
source handle and tags. -/
def ParseToken.new_leaf (tok : Token) : ParseToken :=
  .Leaf tok.indices tok.body tok.tags

/-- `ParseToken::new_branch`: builds a Branch with the given children, source
handle and tags; no constraint on the children. -/
def ParseToken.new_branch (children : List ParseToken) (body : String)
    (tags : List String) : ParseToken :=
  .Branch children body tags

/-- `ParseToken::new_branch_from_first`: builds a Branch whose `body` is the
`body` of the first child.  The Rust code indexes `children[0]`, which panics
on an empty vector; the panic is rendered by `none`. -/
def ParseToken.new_branch_from_first (children : List ParseToken)
    (tags : List String) : Option ParseToken :=
  match children with
  | [] => none
  | c :: _ => some (.Branch children c.body tags)

mutual

/-- `ParseToken::content_range`: a Leaf returns its stored range; a Branch
collects the content ranges of its children (dropping children without one)
and, when any remain, spans from the start of the first to the stop of the
last. -/
def ParseToken.content_range : ParseToken → Option Rng
  | .Leaf r _ _ => some r
  | .Branch cs _ _ =>
    match ParseToken.content_ranges cs with
    | [] => none
    | r :: rs => some ⟨r.start, (rs.getLastD r).stop⟩

/-- The `known_ranges` computation inside `content_range`: the Rust
`children.iter().flat_map(|item| item.content_range()).collect()`. -/
def ParseToken.content_ranges : List ParseToken → List Rng
  | [] => []
  | c :: cs =>
    match ParseToken.content_range c with
    | some r => r :: ParseToken.content_ranges cs
    | none => ParseToken.content_ranges cs

end

/-- Character-level model of the Rust string slice `&s[r]`. -/
def strSlice (s : String) (r : Rng) : String :=
  ((s.toList.drop r.start).take (r.stop - r.start)).asString

/-- `ParseToken::content`: the slice of the source handle addressed by
`content_range`, or the empty string when there is none. -/
def ParseToken.content (pt : ParseToken) : String :=
  match pt.content_range with
  | some cr => strSlice pt.body cr
  | none => ""

/-- Modelled from the spec: blex `empty_token`, the always-present empty
terminator token appended by the flat-sequence producer (empty source text,
empty range, no tags).  blex is an external dependency whose source is not
part of this repository. -/
def empty_token : Token :=
  { body := "", indices := ⟨0, 0⟩, tags := [] }

/-- `empty_parse_token` from src/parse_token.rs: the leaf built from the
empty token. -/
def empty_parse_token : ParseToken :=
  ParseToken.new_leaf empty_token

/-- `tokens_to_parse_tokens` from src/parse_token.rs: maps every token to a
leaf, then appends the empty sentinel leaf. -/
def tokens_to_parse_tokens (tokens : List Token) : List ParseToken :=
  tokens.map ParseToken.new_leaf ++ [empty_parse_token]

/-- `remove_last` from src/lispy_tests.rs: drops the final element when the
list is non-empty. -/
def remove_last (pts : List ParseToken) : List ParseToken :=
  pts.dropLast

/-- Does position `k` of the list hold a node carrying tag `t`?  Positions
outside the list answer `false`. -/
def tagAt (t : String) (pts : List ParseToken) (k : Nat) : Bool :=
  match pts[k]? with
  | some pt => pt.has_tag t
  | none => false

/-- The scanning loop of `eval` in src/lispy_tests.rs, as a state machine
walking the suffix `rem` of the scanned vector, `i` being the absolute index
of the head of `rem`.  The state `(l_index, r_index)` is updated exactly as
the Rust `match (l_index, r_index)` does; the arm reached with both indices
set fires the replacement, which the scan reports by returning the pair. -/
def scanGoAux : List ParseToken → Nat → Option Nat → Option Nat →
    Option (Nat × Nat)
  | [], _, _, _ => none
  | pt :: rest, i, none, none =>
      scanGoAux rest (i + 1) (if pt.has_tag "(" then some i else none) none
  | pt :: rest, i, some l, none =>
      scanGoAux rest (i + 1) (some (if pt.has_tag "(" then i else l))
        (if pt.has_tag ")" then some i else none)
  | _ :: _, _, some l, some r => some (l, r)
  | _ :: rest, i, none, some r => scanGoAux rest (i + 1) none (some r)

/-- The full scan of `eval` over a vector, from index 0 with empty state.
Returns the `(l_index, r_index)` pair at which the loop body fires the
replacement, or `none` when the loop runs to completion. -/
def scanGo (pts : List ParseToken) : Option (Nat × Nat) :=
  scanGoAux pts 0 none none

/-- The recursion of `eval` from src/lispy_tests.rs with an explicit fuel.
When the scan fires at `(l, r)`: the slice `pts[(l+1)..r]` is grouped
recursively, wrapped by `new_branch_from_first` with tag list `["expr"]`,
spliced over the inclusive span `[l, r]`, and the scan restarts on the
result.  `none` marks a panic: a reversed slice (`l + 1 > r`, possible only
for a node tagged both as opener and closer) or `new_branch_from_first` on an
empty interior. -/
def evalGo : Nat → List ParseToken → Option (List ParseToken)
  | 0, _ => none
  | fuel + 1, pts =>
    match scanGo pts with
    | none => some pts
    | some (l, r) =>
      if l + 1 ≤ r then
        match evalGo fuel ((pts.drop (l + 1)).take (r - (l + 1))) with
        | none => none
        | some inner =>
          match ParseToken.new_branch_from_first inner ["expr"] with
          | none => none
          | some new_expr =>
            evalGo fuel (pts.take l ++ new_expr :: pts.drop (r + 1))
      else none

/-- `eval` from src/lispy_tests.rs.  The fuel `pts.length + 1` is sufficient
because every recursive call of the Rust `eval` is on a strictly shorter
vector; `evalGo_fuel_irrel` below shows the result does not depend on the
fuel once the fuel exceeds the length. -/
def eval (pts : List ParseToken) : Option (List ParseToken) :=
  evalGo (pts.length + 1) pts

/-! ### Properties of the scan -/

/-- Invariant of the scanning loop: when the scan of the suffix `pts.drop i`
fires at `(l, r)`, then `l ≤ r`, position `r + 1` exists (the firing
iteration is strictly after the closer), `l` holds an opener, `r` holds a
closer, and no opener sits strictly between them. -/
theorem scanGoAux_spec (pts : List ParseToken) :
    ∀ (rem : List ParseToken) (i : Nat) (lopt ropt : Option Nat) (l r : Nat),
    rem = pts.drop i →
    (∀ l0, lopt = some l0 → l0 < i ∧ tagAt "(" pts l0 = true ∧
      (∀ k, l0 < k → k < i → tagAt "(" pts k = false)) →
    (∀ r0, ropt = some r0 → r0 < i ∧ tagAt ")" pts r0 = true ∧
      (∃ l0, lopt = some l0 ∧ l0 ≤ r0 ∧
        (∀ k, l0 < k → k < r0 → tagAt "(" pts k = false))) →
    scanGoAux rem i lopt ropt = some (l, r) →
    l ≤ r ∧ r + 2 ≤ pts.length ∧ tagAt "(" pts l = true ∧
      tagAt ")" pts r = true ∧
      (∀ k, l < k → k < r → tagAt "(" pts k = false) := by
  intro rem
  induction rem with
  | nil =>
    intro i lopt ropt l r _ _ _ hscan
    simp [scanGoAux] at hscan
  | cons pt rest ih =>
    intro i lopt ropt l r hrem hL hR hscan
    have hpt : pts[i]? = some pt := by
      have h0 := List.getElem?_drop pts i 0
      rw [← hrem] at h0
      simpa using h0.symm
    have hrest : rest = pts.drop (i + 1) := by
      have ht := List.tail_drop pts i
      rw [← hrem] at ht
      simpa using ht
    have htag : ∀ t, tagAt t pts i = pt.has_tag t := by
      intro t; simp [tagAt, hpt]
    have hi : i < pts.length := by
      by_contra hni
      push_neg at hni
      have hd : pts.drop i = [] := List.drop_eq_nil_of_le hni
      rw [← hrem] at hd
      simp at hd
    cases lopt with
    | none =>
      cases ropt with
      | none =>
        simp only [scanGoAux] at hscan
        refine ih (i + 1) _ none l r hrest ?_ ?_ hscan
        · intro l0 h0
          by_cases hb : pt.has_tag "(" = true
          · rw [if_pos hb] at h0
            cases h0
            exact ⟨Nat.lt_succ_self i, by rw [htag]; exact hb,
              fun k hk1 hk2 => absurd (Nat.lt_of_lt_of_le hk1 (Nat.le_of_lt_succ hk2)) (lt_irrefl _)⟩
          · rw [if_neg hb] at h0
            cases h0
        · intro r0 h0
          cases h0
      | some r0 =>
        obtain ⟨-, -, l0, hl0, -⟩ := hR r0 rfl
        cases hl0
    | some l0 =>
      cases ropt with
      | none =>
        simp only [scanGoAux] at hscan
        obtain ⟨hl0i, hl0tag, hl0bet⟩ := hL l0 rfl
        refine ih (i + 1) _ _ l r hrest ?_ ?_ hscan
        · intro l1 h1
          injection h1 with h1
          by_cases hb : pt.has_tag "(" = true
          · rw [if_pos hb] at h1
            subst h1
            exact ⟨Nat.lt_succ_self i, by rw [htag]; exact hb,
              fun k hk1 hk2 => absurd (Nat.lt_of_lt_of_le hk1 (Nat.le_of_lt_succ hk2)) (lt_irrefl _)⟩
          · rw [if_neg hb] at h1
            subst h1
            refine ⟨Nat.lt_succ_of_lt hl0i, hl0tag, fun k hk1 hk2 => ?_⟩
            rcases Nat.lt_or_ge k i with hk | hk
            · exact hl0bet k hk1 hk
            · have : k = i := by omega
              subst this
              rw [htag]
              exact Bool.not_eq_true _ ▸ (by simpa using hb)
        · intro r1 h1
          by_cases hc : pt.has_tag ")" = true
          · rw [if_pos hc] at h1
            cases h1
            refine ⟨Nat.lt_succ_self i, by rw [htag]; exact hc,
              (if pt.has_tag "(" then i else l0), rfl, ?_, ?_⟩
            · by_cases hb : pt.has_tag "(" = true
              · rw [if_pos hb]
              · rw [if_neg hb]; exact Nat.le_of_lt hl0i
            · intro k hk1 hk2
              by_cases hb : pt.has_tag "(" = true
              · rw [if_pos hb] at hk1
                omega
              · rw [if_neg hb] at hk1
                exact hl0bet k hk1 hk2
          · rw [if_neg hc] at h1
            cases h1
      | some r0 =>
        simp only [scanGoAux, Option.some.injEq, Prod.mk.injEq] at hscan
        obtain ⟨hl1eq, hr1eq⟩ := hscan
        obtain ⟨hr0i, hr0tag, l1, hl1, hle, hbet⟩ := hR r0 rfl
        injection hl1 with hl1
        subst hl1
        obtain ⟨-, hltag, -⟩ := hL l0 rfl
        rw [← hl1eq, ← hr1eq]
        exact ⟨hle, by omega, hltag, hr0tag, hbet⟩

/-- Specification of the full scan: a fired pair `(l, r)` has `l ≤ r`, the
element after the closer exists, `l` is opener-tagged, `r` is closer-tagged,
and no opener-tagged node lies strictly between them (the closer is matched
with the most recent opener). -/
theorem scanGo_spec (pts : List ParseToken) (l r : Nat)
    (h : scanGo pts = some (l, r)) :
    l ≤ r ∧ r + 2 ≤ pts.length ∧ tagAt "(" pts l = true ∧
      tagAt ")" pts r = true ∧
      (∀ k, l < k → k < r → tagAt "(" pts k = false) := by
  refine scanGoAux_spec pts pts 0 none none l r (by simp) ?_ ?_ h
  · intro l0 h0; cases h0
  · intro r0 h0; cases h0

/-- A scan whose remaining suffix holds no closer-tagged node never fires,
whatever opener state it carries. -/
theorem scanGoAux_none_of_noCloser :
    ∀ (rem : List ParseToken) (i : Nat) (lopt : Option Nat),
    (∀ pt ∈ rem, pt.has_tag ")" = false) →
    scanGoAux rem i lopt none = none := by
  intro rem
  induction rem with
  | nil => intro i lopt _; simp [scanGoAux]
  | cons pt rest ih =>
    intro i lopt hno
    have hpt : pt.has_tag ")" = false := hno pt (by simp)
    have hrest : ∀ q ∈ rest, q.has_tag ")" = false :=
      fun q hq => hno q (by simp [hq])
    cases lopt with
    | none =>
      simp only [scanGoAux]
      exact ih (i + 1) _ hrest
    | some l0 =>
      simp only [scanGoAux, hpt, if_false]
      exact ih (i + 1) _ hrest

/-- A scan whose remaining suffix holds no opener-tagged node, started with
empty state, never fires. -/
theorem scanGoAux_none_of_noOpener :
    ∀ (rem : List ParseToken) (i : Nat),
    (∀ pt ∈ rem, pt.has_tag "(" = false) →
    scanGoAux rem i none none = none := by
  intro rem
  induction rem with
  | nil => intro i _; simp [scanGoAux]
  | cons pt rest ih =>
    intro i hno
    have hpt : pt.has_tag "(" = false := hno pt (by simp)
    simp only [scanGoAux, hpt, if_false]
    exact ih (i + 1) (fun q hq => hno q (by simp [hq]))

/-- Once an opener is pending, a scan that runs to completion has no
closer-tagged node in any non-final remaining position. -/
theorem scanGoAux_noCloser_of_none :
    ∀ (rem : List ParseToken) (i l0 : Nat),
    scanGoAux rem i (some l0) none = none →
    ∀ j, j + 1 < rem.length → tagAt ")" rem j = false := by
  intro rem
  induction rem with
  | nil => intro i l0 _ j hj; simp at hj
  | cons pt rest ih =>
    intro i l0 h j hj
    simp only [scanGoAux] at h
    by_cases hc : pt.has_tag ")" = true
    · rw [if_pos hc] at h
      cases rest with
      | nil => simp at hj
      | cons c rest2 => simp [scanGoAux] at h
    · rw [if_neg hc] at h
      cases j with
      | zero =>
        simp [tagAt, ParseToken.has_tag] at hc ⊢
        exact hc
      | succ j2 =>
        have := ih (i + 1) _ h j2 (by simpa using Nat.lt_of_succ_lt_succ hj)
        simpa [tagAt] using this

/-- A scan from the empty state that runs to completion leaves no
opener-tagged node followed (strictly later, but not in final position) by a
closer-tagged node. -/
theorem scanGoAux_noPair_of_none :
    ∀ (rem : List ParseToken) (i : Nat),
    scanGoAux rem i none none = none →
    ∀ a b, a < b → b + 1 < rem.length → tagAt "(" rem a = true →
    tagAt ")" rem b = false := by
  intro rem
  induction rem with
  | nil => intro i _ a b _ hb _; simp at hb
  | cons pt rest ih =>
    intro i h a b hab hb hta
    simp only [scanGoAux] at h
    by_cases ho : pt.has_tag "(" = true
    · rw [if_pos ho] at h
      cases b with
      | zero => omega
      | succ b2 =>
        have := scanGoAux_noCloser_of_none rest (i + 1) i h b2
          (by simpa using Nat.lt_of_succ_lt_succ hb)
        simpa [tagAt] using this
    · rw [if_neg ho] at h
      cases a with
      | zero =>
        simp [tagAt] at hta
        exact absurd hta ho
      | succ a2 =>
        cases b with
        | zero => omega
        | succ b2 =>
          have := ih (i + 1) h a2 b2 (by omega)
            (by simpa using Nat.lt_of_succ_lt_succ hb)
            (by simpa [tagAt] using hta)
          simpa [tagAt] using this

/-- Full-scan version: when the scan never fires, no opener is followed by a
non-final closer. -/
theorem scanGo_noPair_of_none (pts : List ParseToken)
    (h : scanGo pts = none) :
    ∀ a b, a < b → b + 1 < pts.length → tagAt "(" pts a = true →
    tagAt ")" pts b = false :=
  scanGoAux_noPair_of_none pts 0 h

/-! ### Properties of the builder -/

/-- Any list returned by `evalGo` is a fixpoint of the scan: the scan of the
output never fires. -/
theorem evalGo_some_scanGo_none :
    ∀ (fuel : Nat) (pts out : List ParseToken),
    evalGo fuel pts = some out → scanGo out = none := by
  intro fuel
  induction fuel with
  | zero => intro pts out h; simp [evalGo] at h
  | succ fuel ih =>
    intro pts out h
    simp only [evalGo] at h
    split at h
    · rename_i hscan
      simp only [Option.some.injEq] at h
      rw [← h]
      exact hscan
    · rename_i l r hscan
      split at h
      · split at h
        · exact absurd h (by simp)
        · split at h
          · exact absurd h (by simp)
          · exact ih _ _ h
      · exact absurd h (by simp)

/-- `eval` output is a fixpoint of the scan. -/
theorem eval_some_scanGo_none (pts out : List ParseToken)
    (h : eval pts = some out) : scanGo out = none :=
  evalGo_some_scanGo_none _ pts out h

/-- When the scan never fires, `eval` returns its input unchanged. -/
theorem eval_of_scanGo_none (pts : List ParseToken)
    (h : scanGo pts = none) : eval pts = some pts := by
  simp [eval, evalGo, h]

/-- The fuel of `evalGo` is irrelevant once it exceeds the length of the
input, which justifies `eval` as an embedding of the (terminating) Rust
recursion. -/
theorem evalGo_fuel_irrel :
    ∀ (n : Nat) (pts : List ParseToken) (f1 f2 : Nat),
    pts.length ≤ n → pts.length < f1 → pts.length < f2 →
    evalGo f1 pts = evalGo f2 pts := by
  intro n
  induction n with
  | zero =>
    intro pts f1 f2 hn h1 h2
    have hpts : pts = [] := List.eq_nil_of_length_eq_zero (Nat.le_zero.mp hn)
    subst hpts
    cases f1 with
    | zero => omega
    | succ f1 =>
      cases f2 with
      | zero => omega
      | succ f2 => simp [evalGo, scanGo, scanGoAux]
  | succ n ih =>
    intro pts f1 f2 hn h1 h2
    cases f1 with
    | zero => omega
    | succ f1 =>
      cases f2 with
      | zero => omega
      | succ f2 =>
        simp only [evalGo]
        cases hscan : scanGo pts with
        | none => rfl
        | some lr =>
          obtain ⟨l, r⟩ := lr
          obtain ⟨hlr, hrlen, -, -, -⟩ := scanGo_spec pts l r hscan
          by_cases hc : l + 1 ≤ r
          · simp only [if_pos hc]
            have hslice : ((pts.drop (l + 1)).take (r - (l + 1))).length ≤ n := by
              simp only [List.length_take, List.length_drop]
              omega
            have hs1 : ((pts.drop (l + 1)).take (r - (l + 1))).length < f1 := by
              simp only [List.length_take, List.length_drop]
              omega
            have hs2 : ((pts.drop (l + 1)).take (r - (l + 1))).length < f2 := by
              simp only [List.length_take, List.length_drop]
              omega
            rw [ih _ f1 f2 hslice hs1 hs2]
            split
            · rfl
            · split
              · rfl
              · refine ih _ f1 f2 ?_ ?_ ?_ <;>
                  · simp only [List.length_append, List.length_take,
                      List.length_cons, List.length_drop]
                    omega
          · simp only [if_neg hc]

/-- One-step unfolding of `eval` as a direct recursion, free of fuel:
matching the Rust source, `eval` returns its input when the scan never
fires; otherwise it groups the interior slice recursively, wraps it with
`new_branch_from_first` under tag `"expr"`, splices the new node over the
inclusive span `[l, r]` and evaluates the result again, propagating panics
as `none`. -/
theorem eval_unfold (pts : List ParseToken) :
    eval pts =
      match scanGo pts with
      | none => some pts
      | some (l, r) =>
        if l + 1 ≤ r then
          match eval ((pts.drop (l + 1)).take (r - (l + 1))) with
          | none => none
          | some inner =>
            match ParseToken.new_branch_from_first inner ["expr"] with
            | none => none
            | some new_expr =>
              eval (pts.take l ++ new_expr :: pts.drop (r + 1))
        else none := by
  conv_lhs => rw [eval, evalGo]
  cases hscan : scanGo pts with
  | none => rfl
  | some lr =>
    obtain ⟨l, r⟩ := lr
    obtain ⟨hlr, hrlen, -, -, -⟩ := scanGo_spec pts l r hscan
    dsimp only
    by_cases hc : l + 1 ≤ r
    · simp only [if_pos hc]
      have hs1 : evalGo pts.length ((pts.drop (l + 1)).take (r - (l + 1))) =
          eval ((pts.drop (l + 1)).take (r - (l + 1))) := by
        refine evalGo_fuel_irrel pts.length _ pts.length _ ?_ ?_ ?_ <;>
          · simp only [List.length_take, List.length_drop]
            omega
      rw [hs1]
      split
      · rfl
      · split
        · rfl
        · refine evalGo_fuel_irrel pts.length _ pts.length _ ?_ ?_ ?_ <;>
            · simp only [List.length_append, List.length_take,
                List.length_cons, List.length_drop]
              omega
    · simp only [if_neg hc]

/-! ### Properties of content ranges -/

/-- The helper `content_ranges` is the `filterMap` of `content_range` over
the children, matching the Rust `flat_map` over options. -/
theorem content_ranges_eq_filterMap (cs : List ParseToken) :
    ParseToken.content_ranges cs = cs.filterMap ParseToken.content_range := by
  induction cs with
  | nil => rw [ParseToken.content_ranges, List.filterMap_nil]
  | cons c cs ih =>
    rw [ParseToken.content_ranges, List.filterMap_cons]
    cases h : c.content_range with
    | none => simpa [h] using ih
    | some r => simpa [h] using ih

/-- Ordered adjacency of ranges: every range ends no later than the next
starts.  This is the hypothesis on sibling content ranges used by the
amended range-monotonicity statement. -/
def chainOrd : List Rng → Bool
  | [] => true
  | [_] => true
  | a :: b :: rest => decide (a.stop ≤ b.start) && chainOrd (b :: rest)

mutual

/-- Well-formedness of a tree relative to a source length `len`: every leaf
range satisfies `start ≤ stop ≤ len` and, in every branch, the content
ranges of the children are in non-overlapping left-to-right order.  This is
the construction discipline of the builder, stated as the hypothesis of the
amended range-monotonicity claim; `new_branch` itself does not enforce it. -/
def ParseToken.wfB (len : Nat) : ParseToken → Bool
  | .Leaf r _ _ => decide (r.start ≤ r.stop) && decide (r.stop ≤ len)
  | .Branch cs _ _ =>
    ParseToken.wfForest len cs && chainOrd (ParseToken.content_ranges cs)

/-- `wfB` on every element of a forest. -/
def ParseToken.wfForest (len : Nat) : List ParseToken → Bool
  | [] => true
  | c :: cs => ParseToken.wfB len c && ParseToken.wfForest len cs

end

theorem wfForest_mem {len : Nat} :
    ∀ (cs : List ParseToken) (c : ParseToken),
    ParseToken.wfForest len cs = true → c ∈ cs →
    ParseToken.wfB len c = true := by
  intro cs
  induction cs with
  | nil => intro c _ hc; simp at hc
  | cons d cs ih =>
    intro c hwf hc
    rw [ParseToken.wfForest, Bool.and_eq_true] at hwf
    rcases List.mem_cons.mp hc with h | h
    · rw [h]; exact hwf.1
    · exact ih c hwf.2 h

theorem mem_content_ranges :
    ∀ (cs : List ParseToken) (x : Rng),
    x ∈ ParseToken.content_ranges cs →
    ∃ c ∈ cs, c.content_range = some x := by
  intro cs
  induction cs with
  | nil => intro x hx; rw [ParseToken.content_ranges] at hx; simp at hx
  | cons c cs ih =>
    intro x hx
    rw [ParseToken.content_ranges] at hx
    cases h : c.content_range with
    | none =>
      rw [h] at hx
      obtain ⟨d, hd, hdx⟩ := ih x hx
      exact ⟨d, by simp [hd], hdx⟩
    | some r =>
      rw [h] at hx
      rcases List.mem_cons.mp hx with hx1 | hx1
      · exact ⟨c, by simp, by rw [h, hx1]⟩
      · obtain ⟨d, hd, hdx⟩ := ih x hx1
        exact ⟨d, by simp [hd], hdx⟩

theorem getLastD_mem : ∀ (rs : List Rng) (r : Rng), rs.getLastD r ∈ r :: rs := by
  intro rs
  induction rs with
  | nil => intro r; simp
  | cons b rest ih =>
    intro r
    rw [List.getLastD_cons]
    have hb := ih b
    rcases List.mem_cons.mp hb with h | h
    · rw [h]; simp
    · exact List.mem_cons_of_mem r (List.mem_cons_of_mem b h)

theorem chainOrd_start_le :
    ∀ (rs : List Rng) (r : Rng), chainOrd (r :: rs) = true →
    (∀ x ∈ r :: rs, x.start ≤ x.stop) →
    r.start ≤ (rs.getLastD r).stop := by
  intro rs
  induction rs with
  | nil => intro r _ hall; simpa using hall r (by simp)
  | cons b rest ih =>
    intro r hchain hall
    rw [List.getLastD_cons]
    rw [chainOrd, Bool.and_eq_true, decide_eq_true_eq] at hchain
    have h3 := ih b hchain.2 (fun x hx => hall x (by
      rcases List.mem_cons.mp hx with h | h
      · simp [h]
      · simp [List.mem_cons, h]))
    exact le_trans (le_trans (hall r (by simp)) hchain.1) h3

/-- Range monotonicity under well-formedness, by strong induction on the
size of the tree: the content range of a well-formed tree has
`start ≤ stop ≤ len`. -/
theorem wfB_content_range_aux :
    ∀ (n : Nat) (pt : ParseToken), sizeOf pt ≤ n →
    ∀ (len : Nat) (rg : Rng), ParseToken.wfB len pt = true →
    pt.content_range = some rg → rg.start ≤ rg.stop ∧ rg.stop ≤ len := by
  intro n
  induction n with
  | zero =>
    intro pt hpt
    cases pt <;> simp_arith at hpt
  | succ n ih =>
    intro pt hpt len rg hwf hcr
    cases pt with
    | Leaf r b t =>
      rw [ParseToken.content_range, Option.some.injEq] at hcr
      rw [ParseToken.wfB, Bool.and_eq_true, decide_eq_true_eq,
        decide_eq_true_eq] at hwf
      rw [← hcr]
      exact hwf
    | Branch cs b t =>
      rw [ParseToken.content_range] at hcr
      rw [ParseToken.wfB, Bool.and_eq_true] at hwf
      obtain ⟨hforest, hchain⟩ := hwf
      cases hkr : ParseToken.content_ranges cs with
      | nil => rw [hkr] at hcr; simp at hcr
      | cons r0 rs =>
        rw [hkr] at hcr
        simp only [Option.some.injEq] at hcr
        have hallwf : ∀ x ∈ r0 :: rs, x.start ≤ x.stop ∧ x.stop ≤ len := by
          intro x hx
          rw [← hkr] at hx
          obtain ⟨c, hc, hcrx⟩ := mem_content_ranges cs x hx
          have hsz : sizeOf c ≤ n := by
            have h1 : sizeOf c < sizeOf cs := List.sizeOf_lt_of_mem hc
            have h2 : sizeOf (ParseToken.Branch cs b t) = 1 + sizeOf cs + sizeOf b + sizeOf t := by
              simp
            omega
          exact ih c hsz len x (wfForest_mem cs c hforest hc) hcrx
        rw [hkr] at hchain
        have hmono := chainOrd_start_le rs r0 hchain (fun x hx => (hallwf x hx).1)
        have hlast := (hallwf (rs.getLastD r0) (getLastD_mem rs r0)).2
        rw [← hcr]
        exact ⟨hmono, hlast⟩

/-! ### Concrete inputs used by claim theorems, witnesses and
counterexamples -/

/-- Source text of the empty-group input `()`. -/
def c1body : String := "()"

def c1tokOpen : Token := ⟨c1body, ⟨0, 1⟩, ["paren", "("]⟩

def c1tokClose : Token := ⟨c1body, ⟨1, 2⟩, ["paren", ")"]⟩

/-- Source text of the two-group input `( a ) ( b )`. -/
def c2body : String := "( a ) ( b )"

def c2n0 : ParseToken := .Leaf ⟨0, 1⟩ c2body ["paren", "("]

def c2n1 : ParseToken := .Leaf ⟨2, 3⟩ c2body ["word"]

def c2n2 : ParseToken := .Leaf ⟨4, 5⟩ c2body ["paren", ")"]

def c2n3 : ParseToken := .Leaf ⟨6, 7⟩ c2body ["paren", "("]

def c2n4 : ParseToken := .Leaf ⟨8, 9⟩ c2body ["word"]

def c2n5 : ParseToken := .Leaf ⟨10, 11⟩ c2body ["paren", ")"]

/-- `( a ) ( b )` as leaves, with the pipeline sentinel appended. -/
def c2input : List ParseToken :=
  [c2n0, c2n1, c2n2, c2n3, c2n4, c2n5, empty_parse_token]

/-- Two sibling `"expr"` branches in source order, plus the sentinel. -/
def c2expected : List ParseToken :=
  [.Branch [c2n1] c2body ["expr"], .Branch [c2n4] c2body ["expr"],
    empty_parse_token]

/-- Source text of the nested input `( ( a ) b )`. -/
def c3body : String := "( ( a ) b )"

def c3n0 : ParseToken := .Leaf ⟨0, 1⟩ c3body ["paren", "("]

def c3n1 : ParseToken := .Leaf ⟨2, 3⟩ c3body ["paren", "("]

def c3n2 : ParseToken := .Leaf ⟨4, 5⟩ c3body ["word"]

def c3n3 : ParseToken := .Leaf ⟨6, 7⟩ c3body ["paren", ")"]

def c3n4 : ParseToken := .Leaf ⟨8, 9⟩ c3body ["word"]

def c3n5 : ParseToken := .Leaf ⟨10, 11⟩ c3body ["paren", ")"]

/-- `( ( a ) b )` as leaves, with the pipeline sentinel appended. -/
def c3input : List ParseToken :=
  [c3n0, c3n1, c3n2, c3n3, c3n4, c3n5, empty_parse_token]

/-- One branch holding a nested branch over `a` followed by leaf `b`, plus
the sentinel. -/
def c3expected : List ParseToken :=
  [.Branch [.Branch [c3n2] c3body ["expr"], c3n4] c3body ["expr"],
    empty_parse_token]

/-- A matched pair with one interior word and the sentinel, used as the
witness scan input of C3. -/
def c3w : List ParseToken := [c3n0, c3n2, c3n3, empty_parse_token]

/-- Source text of the unmatched-opener input `( a`. -/
def c7body : String := "( a"

def c7op : ParseToken := .Leaf ⟨0, 1⟩ c7body ["paren", "("]

def c7w : ParseToken := .Leaf ⟨2, 3⟩ c7body ["word"]

/-- Source text of the stray-closer input `) ( a`. -/
def c7body2 : String := ") ( a"

def c7cl : ParseToken := .Leaf ⟨0, 1⟩ c7body2 ["paren", ")"]

def c7op2 : ParseToken := .Leaf ⟨2, 3⟩ c7body2 ["paren", "("]

def c7w2 : ParseToken := .Leaf ⟨4, 5⟩ c7body2 ["word"]

/-- A single stray closer leaf. -/
def c10cl : ParseToken := .Leaf ⟨0, 1⟩ ")" ["paren", ")"]

/-- A well-formed two-leaf branch over the source text `ab`. -/
def c5good : ParseToken :=
  ParseToken.new_branch [.Leaf ⟨0, 1⟩ "ab" ["word"], .Leaf ⟨1, 2⟩ "ab" ["word"]]
    "ab" ["expr"]

/-- A branch whose children are out of source order, over the source text
`ab` of length 2. -/
def c5bad : ParseToken :=
  ParseToken.new_branch [.Leaf ⟨5, 6⟩ "ab" ["word"], .Leaf ⟨0, 1⟩ "ab" ["word"]]
    "ab" ["expr"]

/-! ### Claim theorems -/

/-- Claim C1: the claim states that `eval` returns normally on every input,
including an adjacent matched opener/closer pair with empty interior.  The
code disagrees: grouping the empty group `( )` — whether fed through the
normal `tokens_to_parse_tokens` pipeline or directly as leaves followed by
the sentinel — reaches `new_branch_from_first` with an empty child list,
which panics (rendered by `none`). -/
theorem c1_eval_panics_on_empty_group :
    eval (tokens_to_parse_tokens [c1tokOpen, c1tokClose]) = none ∧
    eval [ParseToken.new_leaf c1tokOpen, ParseToken.new_leaf c1tokClose,
      empty_parse_token] = none :=
  ⟨rfl, rfl⟩

/-- Claim C2 (amended): when `eval` returns normally, its output has no
opener-tagged node followed by a closer-tagged node in non-final position
(no resolvable matched pair remains at the top level); and the two-group
input `( a ) ( b )` with the trailing sentinel yields two sibling `"expr"`
branches in source order, the delimiters consumed. -/
theorem c2_grouping_resolves_top_level_pairs :
    (∀ pts out, eval pts = some out →
      ∀ a b, a < b → b + 1 < out.length → tagAt "(" out a = true →
      tagAt ")" out b = false) ∧
    eval c2input = some c2expected :=
  ⟨fun pts out h => scanGo_noPair_of_none out (eval_some_scanGo_none pts out h),
    rfl⟩

/-- Claim C2 witness: the postcondition applied to the concrete fixpoint
`[c2n0, c2n1, c2n4]` (an opener followed only by words). -/
theorem c2_grouping_resolves_top_level_pairs_witness :
    tagAt ")" [c2n0, c2n1, c2n4] 1 = false :=
  c2_grouping_resolves_top_level_pairs.1 [c2n0, c2n1, c2n4] [c2n0, c2n1, c2n4]
    rfl 0 1 (by decide) (by decide) rfl

/-- Claim C2 counterexample: for the input `( a )` whose closer is the final
element, the matched top-level pair at positions 0 and 2 is NOT replaced —
`eval` returns the input unchanged, contradicting the claim as stated for
every input sequence. -/
theorem c2_closer_final_counterexample :
    eval [c2n0, c2n1, c2n2] = some [c2n0, c2n1, c2n2] ∧
    tagAt "(" [c2n0, c2n1, c2n2] 0 = true ∧
    tagAt ")" [c2n0, c2n1, c2n2] 2 = true :=
  ⟨rfl, rfl, rfl⟩

/-- Claim C3: a fired pair of the scan consists of an opener-tagged node at
`l` and a closer-tagged node at `r ≥ l` with no opener-tagged node strictly
between them — the closer matches the most recent (nearest preceding)
opener; when no node is tagged as both opener and closer, `l` is strictly
before `r`.  The nested input `( ( a ) b )` with the sentinel groups to one
branch holding a nested branch over `a` followed by leaf `b`. -/
theorem c3_innermost_first_matching :
    (∀ pts l r, scanGo pts = some (l, r) →
      l ≤ r ∧ tagAt "(" pts l = true ∧ tagAt ")" pts r = true ∧
      (∀ k, l < k → k < r → tagAt "(" pts k = false)) ∧
    (∀ pts l r, scanGo pts = some (l, r) →
      (∀ j, ¬(tagAt "(" pts j = true ∧ tagAt ")" pts j = true)) → l < r) ∧
    eval c3input = some c3expected := by
  refine ⟨?_, ?_, rfl⟩
  · intro pts l r h
    obtain ⟨h1, -, h3, h4, h5⟩ := scanGo_spec pts l r h
    exact ⟨h1, h3, h4, h5⟩
  · intro pts l r h hdisj
    obtain ⟨h1, -, h3, h4, -⟩ := scanGo_spec pts l r h
    rcases Nat.lt_or_ge l r with hlt | hge
    · exact hlt
    · have : l = r := le_antisymm h1 hge
      subst this
      exact absurd ⟨h3, h4⟩ (hdisj l)

/-- Claim C3 witness: the scan of `[c3n0, c3n2, c3n3, sentinel]` fires at
the pair `(0, 2)`, whose tags the theorem then reports. -/
theorem c3_innermost_first_matching_witness :
    tagAt "(" c3w 0 = true ∧ tagAt ")" c3w 2 = true ∧ (0 : Nat) < 2 := by
  refine ⟨(c3_innermost_first_matching.1 c3w 0 2 rfl).2.1,
    (c3_innermost_first_matching.1 c3w 0 2 rfl).2.2.1,
    c3_innermost_first_matching.2.1 c3w 0 2 rfl ?_⟩
  intro j hj
  rcases j with _ | _ | _ | _ | j
  · exact absurd hj.2 (by decide)
  · exact absurd hj.1 (by decide)
  · exact absurd hj.1 (by decide)
  · exact absurd hj.1 (by decide)
  · exact absurd hj.1 (by simp [tagAt, c3w])

/-- Claim C4: `content_range` of a Leaf is its stored range; for a Branch it
filters the content ranges of the children (discarding those with none) and
spans from the start of the first remaining range to the stop of the last,
returning nothing when no child produced a range. -/
theorem c4_content_range_spec :
    (∀ (r : Rng) (b : String) (t : List String),
      (ParseToken.Leaf r b t).content_range = some r) ∧
    (∀ (cs : List ParseToken) (b : String) (t : List String),
      (ParseToken.Branch cs b t).content_range =
        match cs.filterMap ParseToken.content_range with
        | [] => none
        | r :: rs => some ⟨r.start, (rs.getLastD r).stop⟩) := by
  constructor
  · intro r b t
    rw [ParseToken.content_range]
  · intro cs b t
    rw [ParseToken.content_range, content_ranges_eq_filterMap]

/-- Claim C5 (amended): for every branch all of whose descendant leaf ranges
satisfy `start ≤ stop ≤ len` and whose sibling content ranges are in
non-overlapping left-to-right order (`wfB`), a returned content range has
`start ≤ stop` and both bounds within `[0, len]`.  Without that ordering
discipline the property fails (see the counterexample). -/
theorem c5_range_monotonicity_amended :
    ∀ (pt : ParseToken) (len : Nat) (rg : Rng),
    ParseToken.wfB len pt = true → pt.content_range = some rg →
    rg.start ≤ rg.stop ∧ rg.start ≤ len ∧ rg.stop ≤ len := by
  intro pt len rg hwf hcr
  obtain ⟨h1, h2⟩ := wfB_content_range_aux (sizeOf pt) pt le_rfl len rg hwf hcr
  exact ⟨h1, le_trans h1 h2, h2⟩

/-- Claim C5 witness: the amended claim applied to the in-order branch
`c5good` over the length-2 source `ab`. -/
theorem c5_range_monotonicity_witness :
    (0 : Nat) ≤ 2 ∧ (0 : Nat) ≤ 2 ∧ (2 : Nat) ≤ 2 :=
  c5_range_monotonicity_amended c5good 2 ⟨0, 2⟩
    (by simp [c5good, ParseToken.new_branch, ParseToken.wfB,
      ParseToken.wfForest, chainOrd, ParseToken.content_ranges,
      ParseToken.content_range])
    (by simp [c5good, ParseToken.new_branch, ParseToken.content_range,
      ParseToken.content_ranges])

/-- Claim C5 counterexample: `new_branch` imposes no ordering on children,
and for the out-of-order branch `c5bad` over the length-2 source `ab`,
`content_range` returns `[5, 1)` — its start exceeds its stop and lies
outside the source text. -/
theorem c5_range_monotonicity_counterexample :
    c5bad.content_range = some ⟨5, 1⟩ ∧ ¬((5 : Nat) ≤ 1) ∧
    ¬((5 : Nat) ≤ "ab".length) := by
  refine ⟨?_, by decide, by decide⟩
  simp [c5bad, ParseToken.new_branch, ParseToken.content_range,
    ParseToken.content_ranges]

/-- Claim C6: the builder is idempotent — running `eval` on its own output
returns that output unchanged; composition (with panic propagated through
`bind`) equals a single run. -/
theorem c6_grouping_idempotent :
    ∀ pts : List ParseToken, (eval pts).bind eval = eval pts := by
  intro pts
  cases h : eval pts with
  | none => rfl
  | some out => exact eval_of_scanGo_none out (eval_some_scanGo_none pts out h)

/-- Claim C7: an opener with no following closer stays a bare leaf (inputs
with no closer are returned unchanged), a closer with no pending opener is
skipped in place (inputs with no opener are returned unchanged, and a stray
closer before an opener is untouched); in particular `( a` groups to the
same two ungrouped leaves. -/
theorem c7_unmatched_tolerance :
    (∀ pts : List ParseToken, (∀ pt ∈ pts, pt.has_tag ")" = false) →
      eval pts = some pts) ∧
    (∀ pts : List ParseToken, (∀ pt ∈ pts, pt.has_tag "(" = false) →
      eval pts = some pts) ∧
    eval [c7op, c7w] = some [c7op, c7w] ∧
    eval [c7cl, c7op2, c7w2] = some [c7cl, c7op2, c7w2] :=
  ⟨fun pts h =>
      eval_of_scanGo_none pts (scanGoAux_none_of_noCloser pts 0 none h),
    fun pts h =>
      eval_of_scanGo_none pts (scanGoAux_none_of_noOpener pts 0 h),
    rfl, rfl⟩

/-- Claim C7 witness: the no-closer case applied to the single word leaf. -/
theorem c7_unmatched_tolerance_witness : eval [c7w] = some [c7w] :=
  c7_unmatched_tolerance.1 [c7w] (by decide)

/-- Claim C8: the content of a leaf built from a token is exactly the slice
of the source text addressed by the token range, and any node without a
content range has empty content. -/
theorem c8_leaf_fidelity :
    (∀ tok : Token, (ParseToken.new_leaf tok).content =
      strSlice tok.body tok.indices) ∧
    (∀ pt : ParseToken, pt.content_range = none → pt.content = "") := by
  constructor
  · intro tok
    simp [ParseToken.new_leaf, ParseToken.content, ParseToken.content_range,
      ParseToken.body]
  · intro pt h
    simp [ParseToken.content, h]

/-- Claim C8 witness: the empty-range case applied to a childless branch. -/
theorem c8_leaf_fidelity_witness : (ParseToken.Branch [] "" []).content = "" :=
  c8_leaf_fidelity.2 (ParseToken.Branch [] "" [])
    (by rw [ParseToken.content_range, ParseToken.content_ranges])

/-- Claim C9: `new_branch_from_first` on an empty child sequence is the
caller contract violation — it panics (rendered `none`); on a non-empty
sequence it returns a branch whose body is the body of the first child and
whose children and tags are exactly those given. -/
theorem c9_branch_from_first_contract :
    (∀ tags : List String, ParseToken.new_branch_from_first [] tags = none) ∧
    (∀ (c : ParseToken) (cs : List ParseToken) (tags : List String),
      ParseToken.new_branch_from_first (c :: cs) tags =
        some (ParseToken.Branch (c :: cs) c.body tags)) :=
  ⟨fun _ => rfl, fun _ _ _ => rfl⟩

/-- Claim C10: the replacement fires only at an iteration strictly after the
closer (`r + 2 ≤ length` at any fired pair), so an input whose closers all
sit in final position is returned unchanged by `eval`;
`tokens_to_parse_tokens` maps each token one-to-one to a leaf and appends
exactly one empty sentinel (length grows by one, the last element is the
untagged sentinel), so a closer is never final in the normal pipeline. -/
theorem c10_sentinel_guarantees_resolution :
    (∀ pts : List ParseToken,
      (∀ k, tagAt ")" pts k = true → k + 1 = pts.length) →
      eval pts = some pts) ∧
    (∀ pts l r, scanGo pts = some (l, r) → r + 2 ≤ pts.length) ∧
    (∀ toks : List Token, tokens_to_parse_tokens toks =
      toks.map ParseToken.new_leaf ++ [empty_parse_token]) ∧
    (∀ toks : List Token,
      (tokens_to_parse_tokens toks).length = toks.length + 1) ∧
    (∀ toks : List Token,
      (tokens_to_parse_tokens toks).getLast? = some empty_parse_token) ∧
    empty_parse_token.has_tag ")" = false := by
  refine ⟨?_, ?_, fun _ => rfl, ?_, ?_, rfl⟩
  · intro pts h
    cases hscan : scanGo pts with
    | none => exact eval_of_scanGo_none pts hscan
    | some lr =>
      obtain ⟨l, r⟩ := lr
      obtain ⟨-, hrlen, -, hrtag, -⟩ := scanGo_spec pts l r hscan
      have := h r hrtag
      omega
  · intro pts l r h
    exact (scanGo_spec pts l r h).2.1
  · intro toks
    simp [tokens_to_parse_tokens]
  · intro toks
    simp [tokens_to_parse_tokens]

/-- Claim C10 witness: a single stray closer is in final position, so the
input is returned unchanged. -/
theorem c10_sentinel_guarantees_resolution_witness :
    eval [c10cl] = some [c10cl] := by
  refine c10_sentinel_guarantees_resolution.1 [c10cl] ?_
  intro k hk
  rcases k with _ | k
  · rfl
  · exact absurd hk (by simp [tagAt])

end Blarse
